import Mathlib

/-!
Verification of the rlm trajectory-parsing core and client usage accounting.

The development embeds, over `List Char`:
  * `rlm/utils/parsing.py`: `find_code_blocks`, `find_final_answer`,
    `format_iteration`, `format_execution_result`.  The three regular
    expressions used there are embedded by direct recursive matchers that
    reproduce CPython `re` semantics (leftmost search, MULTILINE anchors,
    DOTALL, greedy vs. lazy backtracking) for those specific patterns.
  * `rlm/clients/openai.py`: the prompt-shape normalisation of
    `completion`/`acompletion` and the `_track_cost` / `get_usage_summary`
    accounting, with Python dicts embedded as insertion-ordered
    association lists.
-/

/-- Characters of a string literal. -/
def str (s : String) : List Char := s.data

/-- The single-quote character (avoids an apostrophe literal). -/
def squote : Char := Char.ofNat 39

/-- The double-quote character. -/
def dquote : Char := Char.ofNat 34

/-- Python regex `\s` / `str.strip` whitespace (ASCII range, as used by the
repository's texts). -/
def isWS (c : Char) : Bool :=
  c = ' ' || c = '\t' || c = '\n' || c = '\r' || c = '\x0b' || c = '\x0c'

/-- Drop the maximal leading run of characters satisfying `p`. -/
def dropLeading (p : Char → Bool) : List Char → List Char
  | [] => []
  | c :: cs => if p c then dropLeading p cs else c :: cs

/-- Python `str.strip(chars)`: drop characters satisfying `p` from both ends. -/
def stripBy (p : Char → Bool) (cs : List Char) : List Char :=
  (dropLeading p ((dropLeading p cs).reverse)).reverse

/-- Python `str.strip()` with no argument. -/
def stripWS (cs : List Char) : List Char := stripBy isWS cs

/-- Drop leading whitespace (the unique way `\s*` can match when the next
pattern character is not whitespace). -/
def dropWS (cs : List Char) : List Char := dropLeading isWS cs

/-- The characters of `pre` after its last newline (empty if `pre` ends in a
newline).  A regex position is "preceded only by whitespace since the last
line break" exactly when this list is all-whitespace. -/
def afterLastNl (pre : List Char) : List Char :=
  (pre.reverse.takeWhile (fun c => !(c = '\n'))).reverse

/-! ## `find_final_answer` (parsing.py lines 29-63)

`FINAL_VAR` pattern: `^\s*FINAL_VAR\((.*?)\)` with `re.MULTILINE | re.DOTALL`.
`FINAL` pattern: `^\s*FINAL\((.*)\)\s*$` with `re.MULTILINE | re.DOTALL`.
-/

/-- Lazy `(.*?)\)` with DOTALL: split the input at the first closing
parenthesis, returning the capture and the remainder after it. -/
def splitAtFirstClose : List Char → Option (List Char × List Char)
  | [] => none
  | c :: cs =>
    if c = ')' then some ([], cs)
    else
      match splitAtFirstClose cs with
      | some (a, r) => some (c :: a, r)
      | none => none

/-- `\s*$` with MULTILINE: some run of whitespace ends at end-of-input or
just before a newline. -/
def tailOK : List Char → Bool
  | [] => true
  | c :: cs => if c = '\n' then true else if isWS c then tailOK cs else false

/-- Greedy `(.*)\)\s*$` with DOTALL: capture up to the last closing
parenthesis whose tail satisfies `\s*$`. -/
def greedyCapture : List Char → Option (List Char)
  | [] => none
  | c :: cs =>
    match greedyCapture cs with
    | some inner => some (c :: inner)
    | none => if c = ')' && tailOK cs then some [] else none

/-- Attempt `\s*FINAL_VAR\((.*?)\)` at a line-start position. -/
def tryVarAt (cs : List Char) : Option (List Char) :=
  let rest := dropWS cs
  if (str "FINAL_VAR(").isPrefixOf rest then
    (splitAtFirstClose (rest.drop 10)).map Prod.fst
  else none

/-- Attempt `\s*FINAL\((.*)\)\s*$` at a line-start position. -/
def tryFinalAt (cs : List Char) : Option (List Char) :=
  let rest := dropWS cs
  if (str "FINAL(").isPrefixOf rest then greedyCapture (rest.drop 6)
  else none

/-- `re.search` scan for a pattern anchored by `^` with MULTILINE: try every
position left to right, attempting the pattern only at line starts.  The
boolean records whether the current position starts a line (position `0`, or
just after a newline). -/
def reSearchLineStart (attempt : List Char → Option (List Char)) :
    Bool → List Char → Option (List Char)
  | _, [] => none
  | atStart, c :: cs =>
    match (if atStart then attempt (c :: cs) else none) with
    | some v => some v
    | none => reSearchLineStart attempt (c = '\n') cs

/-- `re.search(r"^\s*FINAL_VAR\((.*?)\)", text, re.MULTILINE | re.DOTALL)`,
returning the first capture group. -/
def searchFinalVar (cs : List Char) : Option (List Char) :=
  reSearchLineStart tryVarAt true cs

/-- `re.search(r"^\s*FINAL\((.*)\)\s*$", text, re.MULTILINE | re.DOTALL)`,
returning the first capture group. -/
def searchFinal (cs : List Char) : Option (List Char) :=
  reSearchLineStart tryFinalAt true cs

/-- Python values appearing in REPL variable bindings and prompts. -/
inductive PyVal where
  | pstr (s : List Char)
  | pint (n : Int)
  | pfloat
  | pbool (b : Bool)
  | plist (xs : List PyVal)
  | ptuple (xs : List PyVal)
  | pdict (entries : List (List Char × PyVal))
  | pnone
  | popaque

/-- `REPLResult` (core/types.py): stdout, stderr and the variable bindings.
The `execution_time` float and the `rlm_calls` list are omitted; none of the
embedded functions read them. -/
structure REPLResult where
  stdout : List Char
  stderr : List Char
  locals : List (List Char × PyVal)

/-- The execution collaborator consumed by `find_final_answer`
(`BaseEnv.execute_code`). -/
structure Env where
  execute_code : List Char → REPLResult

/-- One escaped character of a CPython `repr` of a string, `q` being the
chosen quote character (printable-ASCII model). -/
def pyEscape (q : Char) (c : Char) : List Char :=
  if c = '\\' then ['\\', '\\']
  else if c = q then ['\\', q]
  else if c = '\n' then ['\\', 'n']
  else if c = '\r' then ['\\', 'r']
  else if c = '\t' then ['\\', 't']
  else [c]

/-- Concatenation of `f` over a list of characters. -/
def concatMap (f : Char → List Char) : List Char → List Char
  | [] => []
  | c :: cs => f c ++ concatMap f cs

/-- CPython `repr` of a string (printable-ASCII model): single quotes unless
the string contains a single quote and no double quote. -/
def pyReprStr (s : List Char) : List Char :=
  if s.contains squote && !(s.contains dquote) then
    dquote :: concatMap (pyEscape dquote) s ++ [dquote]
  else
    squote :: concatMap (pyEscape squote) s ++ [squote]

/-- `match.group(1).strip().strip(dquote).strip(squote)` from
`find_final_answer`. -/
def cleanVarName (raw : List Char) : List Char :=
  stripBy (fun c => c = squote) (stripBy (fun c => c = dquote) (stripWS raw))

/-- The synthesized statement `print(FINAL_VAR({variable_name!r}))`. -/
def mkFinalVarCode (variable_name : List Char) : List Char :=
  str "print(FINAL_VAR(" ++ pyReprStr variable_name ++ str "))"

/-- The `FINAL_VAR` resolution branch: run the synthesized statement and read
stripped stdout, falling back to stripped stderr when stdout strips empty. -/
def resolveVar (env : Env) (raw : List Char) : List Char :=
  let result := env.execute_code (mkFinalVarCode (cleanVarName raw))
  let final_answer := stripWS result.stdout
  if final_answer = [] then stripWS result.stderr else final_answer

/-- `find_final_answer` (parsing.py lines 29-63). -/
def find_final_answer (text : List Char) (environment : Option Env) :
    Option (List Char) :=
  match searchFinalVar text with
  | some raw =>
    match environment with
    | some env => some (resolveVar env raw)
    | none => none
  | none =>
    match searchFinal text with
    | some payload => some (stripWS payload)
    | none => none

/-! ## `find_code_blocks` (parsing.py lines 14-26)

Pattern `r"```repl\s*\n(.*?)\n```"` with `re.DOTALL`, iterated with
`re.finditer`.
-/

/-- Lazy `(.*?)\n``` `: split at the first newline that is followed by a
triple backtick fence, returning the capture and the remainder after the
fence. -/
def lazyClose : List Char → Option (List Char × List Char)
  | [] => none
  | c :: cs =>
    if c = '\n' && (str "```").isPrefixOf cs then some ([], cs.drop 3)
    else
      match lazyClose cs with
      | some (a, r) => some (c :: a, r)
      | none => none

/-- Greedy `\s*\n` then the lazy close: try the newlines of the leading
whitespace run latest-first, as regex backtracking does. -/
def wsNlBacktrack : List Char → Option (List Char × List Char)
  | [] => none
  | c :: cs =>
    if isWS c then
      match wsNlBacktrack cs with
      | some r => some r
      | none => if c = '\n' then lazyClose cs else none
    else none

/-- `re.finditer` scan: at each position try the literal `` ```repl `` header
followed by the backtracking body; on success continue after the match, on
failure advance one character.  `fuel` bounds the recursion by the input
length. -/
def scanCodeBlocks : Nat → List Char → List (List Char)
  | 0, _ => []
  | _ + 1, [] => []
  | fuel + 1, c :: cs =>
    if (str "```repl").isPrefixOf (c :: cs) then
      match wsNlBacktrack ((c :: cs).drop 7) with
      | some (cap, rest) => stripWS cap :: scanCodeBlocks fuel rest
      | none => scanCodeBlocks fuel cs
    else scanCodeBlocks fuel cs

/-- `find_code_blocks` (parsing.py lines 14-26): all `` ```repl `` blocks,
each stripped. -/
def find_code_blocks (text : List Char) : List (List Char) :=
  scanCodeBlocks text.length text

/-! ## `format_execution_result` (parsing.py lines 106-136) -/

/-- `isinstance(value, (str, int, float, bool, list, dict, tuple))`. -/
def isSimpleVal : PyVal → Bool
  | .pstr _ => true
  | .pint _ => true
  | .pfloat => true
  | .pbool _ => true
  | .plist _ => true
  | .ptuple _ => true
  | .pdict _ => true
  | _ => false

/-- `not key.startswith("_") and key not in ["__builtins__", "__name__",
"__doc__"]`. -/
def visibleKey (k : List Char) : Bool :=
  (match k with
   | '_' :: _ => false
   | _ => true)
  && !(k = str "__builtins__" || k = str "__name__" || k = str "__doc__")

/-- The filter selecting the bindings listed by the variables section. -/
def visibleBinding (kv : List Char × PyVal) : Bool :=
  visibleKey kv.1 && isSimpleVal kv.2

/-- Python `sep.join(parts)`. -/
def joinSep (sep : List Char) : List (List Char) → List Char
  | [] => []
  | [x] => x
  | x :: xs => x ++ sep ++ joinSep sep xs

/-- `f"{list(important_vars.keys())}"`: the printed Python list of key
strings. -/
def pyStrListRepr (names : List (List Char)) : List Char :=
  '[' :: joinSep (str ", ") (names.map pyReprStr) ++ [']']

/-- `format_execution_result` (parsing.py lines 106-136). -/
def format_execution_result (result : REPLResult) : List Char :=
  let result_parts : List (List Char) :=
    (if result.stdout = [] then [] else ['\n' :: result.stdout]) ++
    (if result.stderr = [] then [] else ['\n' :: result.stderr]) ++
    (let important_vars := result.locals.filter visibleBinding
     if important_vars.isEmpty then []
     else [str "REPL variables: " ++ pyStrListRepr (important_vars.map Prod.fst)
           ++ ['\n']])
  if result_parts = [] then str "No output"
  else joinSep (str "\n\n") result_parts

/-! ## `format_iteration` (parsing.py lines 66-98) -/

/-- One chat message `{"role": ..., "content": ...}`. -/
structure Message where
  role : List Char
  content : List Char

/-- `CodeBlock` (core/types.py). -/
structure CodeBlock where
  code : List Char
  result : REPLResult

/-- `RLMIteration` (core/types.py); `iteration_time` omitted (unread by the
embedded functions). -/
structure RLMIteration where
  prompt : PyVal
  response : List Char
  code_blocks : List CodeBlock
  final_answer : Option (List Char) := none

/-- Decimal rendering of a number, as Python string formatting produces. -/
def natRepr (n : Nat) : List Char := (Nat.repr n).data

/-- `format_iteration` (parsing.py lines 66-98). -/
def format_iteration (iteration : RLMIteration)
    (max_character_length : Nat := 20000) : List Message :=
  ⟨str "assistant", iteration.response⟩ ::
  iteration.code_blocks.map (fun code_block =>
    let code := code_block.code
    let result := format_execution_result code_block.result
    let result :=
      if result.length > max_character_length then
        result.take max_character_length ++
          str "... + [" ++ natRepr (result.length - max_character_length) ++
          str " chars...]"
      else result
    ⟨str "user",
     str "Code executed:\n```python\n" ++ code ++
     str "\n```\n\nREPL output:\n" ++ result⟩)

/-! ## `OpenAIClient` (clients/openai.py) -/

/-- The `ValueError`s raised by `completion`/`acompletion`/`_track_cost`. -/
inductive RlmError where
  | invalidPromptType
  | modelNameRequired
  | noUsageData
deriving DecidableEq

/-- `isinstance(item, dict)`. -/
def isDict : PyVal → Bool
  | .pdict _ => true
  | _ => false

/-- The prompt-shape normalisation prefix of `OpenAIClient.completion`
(openai.py lines 53-59): a `str` becomes a single user message, a list of
dicts passes through, anything else raises `ValueError`. -/
def completion_messages (prompt : PyVal) : Except RlmError (List PyVal) :=
  match prompt with
  | .pstr s =>
    .ok [.pdict [(str "role", .pstr (str "user")), (str "content", .pstr s)]]
  | .plist items =>
    if items.all isDict then .ok items else .error .invalidPromptType
  | _ => .error .invalidPromptType

/-- The identical prompt-shape normalisation prefix of
`OpenAIClient.acompletion` (openai.py lines 78-83). -/
def acompletion_messages (prompt : PyVal) : Except RlmError (List PyVal) :=
  match prompt with
  | .pstr s =>
    .ok [.pdict [(str "role", .pstr (str "user")), (str "content", .pstr s)]]
  | .plist items =>
    if items.all isDict then .ok items else .error .invalidPromptType
  | _ => .error .invalidPromptType

/-- A `defaultdict(int)` keyed by model name: an insertion-ordered
association list, missing keys reading as `0`. -/
abbrev UsageDict := List (List Char × Nat)

/-- Dictionary read with default `0`. -/
def dget (d : UsageDict) (k : List Char) : Nat :=
  match d with
  | [] => 0
  | (k', v) :: d => if k' = k then v else dget d k

/-- `d[k] += n`: update in place, appending the key on first touch. -/
def dadd (d : UsageDict) (k : List Char) (n : Nat) : UsageDict :=
  match d with
  | [] => [(k, n)]
  | (k', v) :: d => if k' = k then (k', v + n) :: d else (k', v) :: dadd d k n

/-- `ModelUsageSummary` (core/types.py). -/
structure ModelUsageSummary where
  total_calls : Nat
  total_input_tokens : Nat
  total_output_tokens : Nat

/-- `UsageSummary` (core/types.py). -/
structure UsageSummary where
  model_usage_summaries : List (List Char × ModelUsageSummary)

/-- The per-model counters of one `OpenAIClient` instance. -/
structure ClientState where
  model_call_counts : UsageDict
  model_input_tokens : UsageDict
  model_output_tokens : UsageDict
  model_total_tokens : UsageDict
  last_prompt_tokens : Option Nat
  last_completion_tokens : Option Nat

/-- The counters of a freshly constructed client. -/
def initClientState : ClientState := ⟨[], [], [], [], none, none⟩

/-- `response.usage` when present: the three token counts. -/
structure CompletionUsage where
  prompt_tokens : Nat
  completion_tokens : Nat
  total_tokens : Nat

/-- `OpenAIClient._track_cost` (openai.py lines 99-112): the call count is
incremented first; a missing `usage` then raises before any token counter is
touched (the returned error models the `ValueError`, alongside the state the
mutations have produced so far). -/
def track_cost (st : ClientState) (model : List Char)
    (usage : Option CompletionUsage) : ClientState × Option RlmError :=
  let st := { st with model_call_counts := dadd st.model_call_counts model 1 }
  match usage with
  | none => (st, some .noUsageData)
  | some u =>
    ({ st with
        model_input_tokens := dadd st.model_input_tokens model u.prompt_tokens
        model_output_tokens :=
          dadd st.model_output_tokens model u.completion_tokens
        model_total_tokens := dadd st.model_total_tokens model u.total_tokens
        last_prompt_tokens := some u.prompt_tokens
        last_completion_tokens := some u.completion_tokens },
     none)

/-- `OpenAIClient.get_usage_summary` (openai.py lines 114-122): iterate the
keys of `model_call_counts` in insertion order, reading each counter. -/
def get_usage_summary (st : ClientState) : UsageSummary :=
  ⟨st.model_call_counts.map (fun p =>
    (p.1,
     ⟨dget st.model_call_counts p.1,
      dget st.model_input_tokens p.1,
      dget st.model_output_tokens p.1⟩))⟩

/-- A run of successfully tracked calls: fold `_track_cost` over the calls,
each carrying its reported usage. -/
def runTracked (events : List (List Char × CompletionUsage)) : ClientState :=
  events.foldl (fun st e => (track_cost st e.1 (some e.2)).1) initClientState

/-- Sum of `total_calls` across a usage summary. -/
def sumSummaryCalls : List (List Char × ModelUsageSummary) → Nat
  | [] => 0
  | (_, s) :: rest => s.total_calls + sumSummaryCalls rest

/-- Sum of the stored values of a usage dictionary. -/
def sumVals : UsageDict → Nat
  | [] => 0
  | (_, v) :: d => v + sumVals d

/-! ## Statement-side vocabulary for the claims -/

/-- The backtick character (used only through `str` literals elsewhere). -/
def btick : Char := Char.ofNat 96

/-- A `FINAL_VAR` marker the `FINAL_VAR` regex can match: some position is
preceded only by whitespace since the last line break, carries the literal
tag, and a closing parenthesis occurs somewhere after it. -/
def varMarkerPresent (cs : List Char) : Bool :=
  (List.range cs.length).any (fun i =>
    (afterLastNl (cs.take i)).all isWS &&
    (str "FINAL_VAR(").isPrefixOf (cs.drop i) &&
    (cs.drop (i + 10)).contains ')')

/-- A `FINAL` marker the `FINAL` regex can match: some position is preceded
only by whitespace since the last line break, carries the literal tag, and a
closing parenthesis at a line end occurs after it. -/
def finalMarkerPresent (cs : List Char) : Bool :=
  (List.range cs.length).any (fun i =>
    (afterLastNl (cs.take i)).all isWS &&
    (str "FINAL(").isPrefixOf (cs.drop i) &&
    (greedyCapture (cs.drop (i + 6))).isSome)

/-- No occurrence of `pat` as a contiguous substring. -/
def noOccur (pat cs : List Char) : Bool :=
  (List.range cs.length).all (fun i => !(pat.isPrefixOf (cs.drop i)))

/-- A properly delimited REPL block around inner text `b`. -/
def mkBlockText (b : List Char) : List Char :=
  str "```repl" ++ '\n' :: (b ++ '\n' :: str "```")

/-- `pre`, then alternately one block and one separator. -/
def assemble : List Char → List (List Char × List Char) → List Char
  | pre, [] => pre
  | pre, (b, sep) :: rest => pre ++ (mkBlockText b ++ assemble sep rest)

/-- Separator text free of backticks. -/
def noBacktick (s : List Char) : Bool := s.all (fun c => !(c = btick))

/-- Inner block text that the extractor keeps intact: it contains some
non-whitespace character and no newline-plus-fence sequence. -/
def goodBody (b : List Char) : Bool :=
  b.any (fun c => !(isWS c)) && noOccur (str "\n```") b

/-! ## General helper lemmas -/

theorem isPrefixOf_nil_false (c : Char) (cs : List Char) :
    (c :: cs).isPrefixOf ([] : List Char) = false := rfl

theorem isPrefixOf_self_append (l t : List Char) : l.isPrefixOf (l ++ t) = true :=
  List.isPrefixOf_iff_prefix.mpr (List.prefix_append l t)

theorem all_any_not_contra {l : List Char} {p : Char → Bool}
    (hall : l.all p = true) (hany : l.any (fun c => !(p c)) = true) : False := by
  rcases List.any_eq_true.mp hany with ⟨c, hc, hnp⟩
  have := List.all_eq_true.mp hall c hc
  simp [this] at hnp

/-! ## Claim C4: truncation in `format_iteration` -/

/-- Claim C4: in `format_iteration`, a code block whose rendered execution
result has length `L` exceeding the configured maximum `M` is embedded in
its message cut to exactly the first `M` characters followed by a suffix
reporting exactly `L - M` elided characters, while a rendered result of
length at most `M` is embedded unmodified. -/
theorem format_iteration_truncation (iteration : RLMIteration) (M : Nat)
    (cb : CodeBlock) (hmem : cb ∈ iteration.code_blocks) :
    ∃ msg ∈ format_iteration iteration M,
      msg.role = str "user" ∧
      ((format_execution_result cb.result).length ≤ M →
        msg.content = str "Code executed:\n```python\n" ++ cb.code ++
          str "\n```\n\nREPL output:\n" ++ format_execution_result cb.result) ∧
      (M < (format_execution_result cb.result).length →
        msg.content = str "Code executed:\n```python\n" ++ cb.code ++
          str "\n```\n\nREPL output:\n" ++
          ((format_execution_result cb.result).take M ++
            str "... + [" ++
            natRepr ((format_execution_result cb.result).length - M) ++
            str " chars...]")) := by
  refine ⟨⟨str "user",
    str "Code executed:\n```python\n" ++ cb.code ++
      str "\n```\n\nREPL output:\n" ++
      (if (format_execution_result cb.result).length > M then
        (format_execution_result cb.result).take M ++
          str "... + [" ++
          natRepr ((format_execution_result cb.result).length - M) ++
          str " chars...]"
      else format_execution_result cb.result)⟩,
    List.mem_cons_of_mem _ (List.mem_map_of_mem _ hmem), rfl, ?_, ?_⟩
  · intro h
    simp only [gt_iff_lt, Nat.not_lt.mpr h, if_false]
  · intro h
    simp only [gt_iff_lt, h, if_true]

/-- Witness for C4: a rendered result of length 8 with maximum 3 is cut to 3
characters plus a suffix reporting 5 elided characters. -/
theorem format_iteration_truncation_witness :
    ∃ msg ∈ format_iteration
        ⟨PyVal.pnone, str "r", [⟨str "c", ⟨str "abcdefg", [], []⟩⟩], none⟩ 3,
      msg.role = str "user" ∧
      ((format_execution_result (⟨str "abcdefg", [], []⟩ : REPLResult)).length ≤ 3 →
        msg.content = str "Code executed:\n```python\n" ++ str "c" ++
          str "\n```\n\nREPL output:\n" ++
          format_execution_result (⟨str "abcdefg", [], []⟩ : REPLResult)) ∧
      (3 < (format_execution_result (⟨str "abcdefg", [], []⟩ : REPLResult)).length →
        msg.content = str "Code executed:\n```python\n" ++ str "c" ++
          str "\n```\n\nREPL output:\n" ++
          ((format_execution_result (⟨str "abcdefg", [], []⟩ : REPLResult)).take 3 ++
            str "... + [" ++
            natRepr
              ((format_execution_result (⟨str "abcdefg", [], []⟩ : REPLResult)).length - 3) ++
            str " chars...]")) :=
  format_iteration_truncation
    ⟨PyVal.pnone, str "r", [⟨str "c", ⟨str "abcdefg", [], []⟩⟩], none⟩ 3
    ⟨str "c", ⟨str "abcdefg", [], []⟩⟩ (List.mem_singleton.mpr rfl)

/-! ## Claim C5: prompt shapes accepted by `completion`/`acompletion` -/

/-- The prompt shapes the code actually accepts: a string, or a list whose
items are all dicts. -/
def acceptedPromptShape (p : PyVal) : Prop :=
  (∃ s, p = PyVal.pstr s) ∨
  (∃ items, p = PyVal.plist items ∧ ∀ v ∈ items, isDict v = true)

/-- Claim C5 counterexample: the claim says a mapping is a supported prompt
shape, but `completion` and `acompletion` reject a mapping prompt with the
malformed-prompt-shape error. -/
theorem completion_rejects_mapping_prompt :
    completion_messages (PyVal.pdict [(str "role", PyVal.pstr (str "user"))])
      = Except.error RlmError.invalidPromptType ∧
    acompletion_messages (PyVal.pdict [(str "role", PyVal.pstr (str "user"))])
      = Except.error RlmError.invalidPromptType :=
  ⟨rfl, rfl⟩

/-- Claim C5 (amended): `completion` and `acompletion` fail with the
malformed-prompt-shape error exactly when the prompt is neither text nor an
ordered sequence whose entries are all mappings; every prompt of an accepted
shape passes the shape check. -/
theorem completion_prompt_shape (p : PyVal) :
    (completion_messages p = Except.error RlmError.invalidPromptType ↔
      ¬ acceptedPromptShape p) ∧
    (acompletion_messages p = Except.error RlmError.invalidPromptType ↔
      ¬ acceptedPromptShape p) ∧
    (acceptedPromptShape p →
      (completion_messages p).isOk = true ∧ (acompletion_messages p).isOk = true) := by
  cases p with
  | pstr s =>
    refine ⟨?_, ?_, fun _ => ⟨rfl, rfl⟩⟩ <;>
      simp [completion_messages, acompletion_messages, acceptedPromptShape]
  | plist items =>
    by_cases hall : items.all isDict = true
    · have hacc : acceptedPromptShape (PyVal.plist items) :=
        Or.inr ⟨items, rfl, List.all_eq_true.mp hall⟩
      refine ⟨?_, ?_, fun _ => ?_⟩
      · simp [completion_messages, hall, hacc]
      · simp [acompletion_messages, hall, hacc]
      · constructor <;>
          simp [completion_messages, acompletion_messages, hall, Except.isOk,
            Except.toBool]
    · have hns : ¬ acceptedPromptShape (PyVal.plist items) := by
        intro h
        rcases h with ⟨s, hs⟩ | ⟨its, hits, hd⟩
        · exact PyVal.noConfusion hs
        · cases hits
          exact hall (List.all_eq_true.mpr hd)
      refine ⟨?_, ?_, fun h => absurd h hns⟩ <;>
        simp [completion_messages, acompletion_messages, hall, hns]
  | pint n =>
    refine ⟨?_, ?_, ?_⟩ <;>
      simp [completion_messages, acompletion_messages, acceptedPromptShape]
  | pfloat =>
    refine ⟨?_, ?_, ?_⟩ <;>
      simp [completion_messages, acompletion_messages, acceptedPromptShape]
  | pbool b =>
    refine ⟨?_, ?_, ?_⟩ <;>
      simp [completion_messages, acompletion_messages, acceptedPromptShape]
  | ptuple xs =>
    refine ⟨?_, ?_, ?_⟩ <;>
      simp [completion_messages, acompletion_messages, acceptedPromptShape]
  | pdict entries =>
    refine ⟨?_, ?_, ?_⟩ <;>
      simp [completion_messages, acompletion_messages, acceptedPromptShape]
  | pnone =>
    refine ⟨?_, ?_, ?_⟩ <;>
      simp [completion_messages, acompletion_messages, acceptedPromptShape]
  | popaque =>
    refine ⟨?_, ?_, ?_⟩ <;>
      simp [completion_messages, acompletion_messages, acceptedPromptShape]

/-- Witness for C5: a text prompt passes the shape check of both entry
points. -/
theorem completion_prompt_shape_witness :
    (completion_messages (PyVal.pstr (str "hi"))).isOk = true ∧
    (acompletion_messages (PyVal.pstr (str "hi"))).isOk = true :=
  (completion_prompt_shape (PyVal.pstr (str "hi"))).2.2 (Or.inl ⟨str "hi", rfl⟩)

/-! ## Claim C7: missing usage data fails without touching token counters -/

/-- Claim C7: when a completed call carries no usage data, `_track_cost`
raises the no-usage error and neither the input-token nor the output-token
counters change for any model. -/
theorem track_cost_missing_usage (st : ClientState) (model : List Char) :
    (track_cost st model none).2 = some RlmError.noUsageData ∧
    (track_cost st model none).1.model_input_tokens = st.model_input_tokens ∧
    (track_cost st model none).1.model_output_tokens = st.model_output_tokens :=
  ⟨rfl, rfl, rfl⟩

/-! ## Claim C8: the "No output" sentinel -/

theorem joinSep_head_ne {sep : List Char} {c : Char} {x : List Char}
    {parts : List (List Char)} {d : Char} {t : List Char} (hc : ¬ c = d) :
    ¬ joinSep sep ((c :: x) :: parts) = d :: t := by
  cases parts with
  | nil => simp [joinSep, hc]
  | cons y ys => simp [joinSep, hc]

/-- Claim C8: `format_execution_result` returns the sentinel `"No output"`
exactly on results with empty stdout, empty stderr and no visible bindings;
whenever any of the three sections has content, the sentinel is not
returned. -/
theorem format_execution_result_sentinel (r : REPLResult) :
    (r.stdout = [] → r.stderr = [] → r.locals.filter visibleBinding = [] →
      format_execution_result r = str "No output") ∧
    ((r.stdout ≠ [] ∨ r.stderr ≠ [] ∨ r.locals.filter visibleBinding ≠ []) →
      format_execution_result r ≠ str "No output") := by
  constructor
  · intro h1 h2 h3
    simp [format_execution_result, h1, h2, h3]
  · intro h
    have hNo : str "No output" = 'N' :: str "o output" := rfl
    by_cases h1 : r.stdout = []
    · by_cases h2 : r.stderr = []
      · have h3 : ¬ r.locals.filter visibleBinding = [] := by tauto
        have h3' : (r.locals.filter visibleBinding).isEmpty = false := by
          simp [List.isEmpty_iff, h3]
        have hR : str "REPL variables: " ++
            (pyStrListRepr ((r.locals.filter visibleBinding).map Prod.fst) ++ ['\n'])
            = 'R' :: (str "EPL variables: " ++
              (pyStrListRepr ((r.locals.filter visibleBinding).map Prod.fst) ++ ['\n'])) := by
          rfl
        simp only [format_execution_result, h1, h2, if_true, h3',
          Bool.false_eq_true, if_false, List.nil_append, List.append_assoc]
        rw [if_neg (List.cons_ne_nil _ _), hNo, hR]
        exact joinSep_head_ne (by decide)
      · simp only [format_execution_result, h1, if_true, h2, if_false,
          List.nil_append, List.singleton_append, List.cons_append]
        rw [if_neg (List.cons_ne_nil _ _), hNo]
        exact joinSep_head_ne (by decide)
    · simp only [format_execution_result, h1, if_false, List.singleton_append,
        List.cons_append]
      rw [if_neg (List.cons_ne_nil _ _), hNo]
      exact joinSep_head_ne (by decide)

/-- Witness for C8: the empty result renders to the sentinel, and a result
with stdout renders to something else. -/
theorem format_execution_result_sentinel_witness :
    format_execution_result ⟨[], [], [(str "x", PyVal.popaque)]⟩ = str "No output" ∧
    format_execution_result ⟨str "hi", [], []⟩ ≠ str "No output" :=
  ⟨(format_execution_result_sentinel ⟨[], [], [(str "x", PyVal.popaque)]⟩).1 rfl rfl rfl,
   (format_execution_result_sentinel ⟨str "hi", [], []⟩).2 (Or.inl (by decide))⟩

/-! ## Claim C6: usage-ledger invariants -/

theorem dget_dadd (d : UsageDict) (k : List Char) (n : Nat) (m : List Char) :
    dget (dadd d k n) m = dget d m + (if k = m then n else 0) := by
  induction d with
  | nil =>
    by_cases h : k = m <;> simp [dadd, dget, h]
  | cons p d ih =>
    obtain ⟨k', v⟩ := p
    by_cases h1 : k' = k
    · subst h1
      by_cases h2 : k' = m
      · subst h2
        simp [dadd, dget]
      · simp [dadd, dget, h2]
    · by_cases h2 : k' = m
      · subst h2
        have hkm : ¬ k = k' := fun h => h1 h.symm
        simp [dadd, dget, h1, hkm]
      · simp [dadd, dget, h1, h2, ih]

theorem sumVals_dadd (d : UsageDict) (k : List Char) (n : Nat) :
    sumVals (dadd d k n) = sumVals d + n := by
  induction d with
  | nil => simp [dadd, sumVals]
  | cons p d ih =>
    obtain ⟨k', v⟩ := p
    by_cases h : k' = k
    · simp [dadd, h, sumVals]
      omega
    · simp [dadd, h, sumVals, ih]
      omega

theorem mem_keys_dadd {d : UsageDict} {k : List Char} {n : Nat} {m : List Char}
    (h : m ∈ (dadd d k n).map Prod.fst) : m ∈ d.map Prod.fst ∨ m = k := by
  induction d with
  | nil => simpa [dadd] using h
  | cons p d ih =>
    obtain ⟨k', v⟩ := p
    by_cases h1 : k' = k
    · subst h1
      left
      simpa [dadd] using h
    · simp only [dadd, h1, if_false, List.map_cons, List.mem_cons] at h
      rcases h with h | h
      · exact Or.inl (by simp [h])
      · rcases ih h with h' | h'
        · exact Or.inl (by simp [h'])
        · exact Or.inr h'

theorem nodup_keys_dadd {d : UsageDict} {k : List Char} {n : Nat}
    (h : (d.map Prod.fst).Nodup) : ((dadd d k n).map Prod.fst).Nodup := by
  induction d with
  | nil => simp [dadd]
  | cons p d ih =>
    obtain ⟨k', v⟩ := p
    rw [List.map_cons, List.nodup_cons] at h
    obtain ⟨hnot, hd⟩ := h
    by_cases h1 : k' = k
    · subst h1
      simp [dadd, List.nodup_cons, hnot, hd]
    · rw [dadd]
      simp only [h1, if_false, List.map_cons, List.nodup_cons]
      refine ⟨?_, ih hd⟩
      intro hmem
      rcases mem_keys_dadd hmem with h' | h'
      · exact hnot h'
      · exact h1 h' 

theorem dget_eq_of_mem_nodup {d : UsageDict} {m : List Char} {v : Nat}
    (hnd : (d.map Prod.fst).Nodup) (hmem : (m, v) ∈ d) : dget d m = v := by
  induction d with
  | nil => simp at hmem
  | cons p d ih =>
    obtain ⟨k', v'⟩ := p
    rw [List.map_cons, List.nodup_cons] at hnd
    obtain ⟨hnot, hd⟩ := hnd
    rcases List.mem_cons.mp hmem with h | h
    · injection h with h1 h2
      subst h1; subst h2
      simp [dget]
    · have hm : m ∈ d.map Prod.fst := by
        exact List.mem_map_of_mem Prod.fst h
      have hne : ¬ k' = m := fun he => hnot (he ▸ hm)
      simp [dget, hne, ih hd h]

theorem sumSummaryCalls_map (A B C : List Char → Nat) :
    ∀ l : UsageDict, (∀ p ∈ l, A p.1 = p.2) →
      sumSummaryCalls (l.map (fun p => (p.1, ⟨A p.1, B p.1, C p.1⟩))) = sumVals l := by
  intro l
  induction l with
  | nil => intro _; rfl
  | cons p l ih =>
    intro hall
    obtain ⟨k, v⟩ := p
    have h1 : A k = v := hall (k, v) (List.mem_cons_self _ _)
    simp only [List.map_cons, sumSummaryCalls, sumVals, h1]
    rw [ih (fun q hq => hall q (List.mem_cons_of_mem _ hq))]

/-- The ledger invariant carried through a run: distinct model keys, and the
stored call counts summing to the number of calls so far. -/
def LedgerInv (st : ClientState) (n : Nat) : Prop :=
  (st.model_call_counts.map Prod.fst).Nodup ∧ sumVals st.model_call_counts = n

theorem ledgerInv_step {st : ClientState} {n : Nat} (h : LedgerInv st n)
    (model : List Char) (u : CompletionUsage) :
    LedgerInv ((track_cost st model (some u)).1) (n + 1) := by
  obtain ⟨hnd, hsum⟩ := h
  exact ⟨nodup_keys_dadd hnd, by rw [track_cost]; simpa [sumVals_dadd] using hsum ▸ rfl⟩

theorem ledgerInv_run :
    ∀ (events : List (List Char × CompletionUsage)) (st : ClientState) (n : Nat),
      LedgerInv st n →
      LedgerInv (events.foldl (fun st e => (track_cost st e.1 (some e.2)).1) st)
        (n + events.length) := by
  intro events
  induction events with
  | nil => intro st n h; simpa using h
  | cons e events ih =>
    intro st n h
    have h1 := ledgerInv_step h e.1 e.2
    have h2 := ih _ _ h1
    simpa [Nat.add_assoc, Nat.add_comm 1 events.length] using h2

/-- Claim C6: for every sequence of tracked model calls, the per-model call
counts in the usage summary sum to the total number of completed calls, and
each model's cumulative input-token and output-token counters never
decrease across a tracking step (and, being naturals, are never
negative). -/
theorem usage_ledger_invariants :
    (∀ events : List (List Char × CompletionUsage),
      sumSummaryCalls (get_usage_summary (runTracked events)).model_usage_summaries
        = events.length) ∧
    (∀ (st : ClientState) (model : List Char) (usage : Option CompletionUsage)
        (m : List Char),
      dget st.model_input_tokens m ≤
        dget ((track_cost st model usage).1).model_input_tokens m ∧
      dget st.model_output_tokens m ≤
        dget ((track_cost st model usage).1).model_output_tokens m) ∧
    (∀ (events : List (List Char × CompletionUsage)) (m : List Char),
      0 ≤ dget (runTracked events).model_input_tokens m ∧
      0 ≤ dget (runTracked events).model_output_tokens m) := by
  refine ⟨?_, ?_, ?_⟩
  · intro events
    have hinv : LedgerInv (runTracked events) events.length := by
      have h0 : LedgerInv initClientState 0 := ⟨by simp [initClientState], rfl⟩
      simpa using ledgerInv_run events initClientState 0 h0
    obtain ⟨hnd, hsum⟩ := hinv
    rw [get_usage_summary]
    rw [sumSummaryCalls_map _ _ _ _ (fun p hp => dget_eq_of_mem_nodup hnd ?_)]
    · exact hsum
    · obtain ⟨a, b⟩ := p
      exact hp
  · intro st model usage m
    cases usage with
    | none => exact ⟨Nat.le_refl _, Nat.le_refl _⟩
    | some u =>
      constructor
      · rw [track_cost]
        simp only [dget_dadd]
        exact Nat.le_add_right _ _
      · rw [track_cost]
        simp only [dget_dadd]
        exact Nat.le_add_right _ _
  · intro events m
    exact ⟨Nat.zero_le _, Nat.zero_le _⟩

/-! ## Whitespace, line-start and prefix helper lemmas -/

theorem takeWhile_append_all {p : Char → Bool} :
    ∀ {xs : List Char} (ys : List Char), (∀ x ∈ xs, p x = true) →
      (xs ++ ys).takeWhile p = xs ++ ys.takeWhile p := by
  intro xs
  induction xs with
  | nil => intro ys _; rfl
  | cons c xs ih =>
    intro ys hall
    have hc : p c = true := hall c (List.mem_cons_self _ _)
    simp only [List.cons_append, List.takeWhile_cons, hc, if_true]
    rw [ih ys (fun x hx => hall x (List.mem_cons_of_mem _ hx))]

theorem takeWhile_append_stop {p : Char → Bool} :
    ∀ {xs : List Char} (ys : List Char), (∃ x ∈ xs, p x = false) →
      (xs ++ ys).takeWhile p = xs.takeWhile p := by
  intro xs
  induction xs with
  | nil =>
    intro ys h
    simp at h
  | cons c xs ih =>
    intro ys h
    by_cases hc : p c = true
    · simp only [List.cons_append, List.takeWhile_cons, hc, if_true]
      have h' : ∃ x ∈ xs, p x = false := by
        rcases h with ⟨x, hx, hpx⟩
        rcases List.mem_cons.mp hx with rfl | hx'
        · rw [hc] at hpx; cases hpx
        · exact ⟨x, hx', hpx⟩
      rw [ih ys h']
    · have hc' : p c = false := by revert hc; cases p c <;> simp
      simp [List.takeWhile_cons, hc']

theorem afterLastNl_nil : afterLastNl [] = [] := rfl

theorem afterLastNl_append_nl (a : List Char) : afterLastNl (a ++ ['\n']) = [] := by
  simp [afterLastNl, List.takeWhile_cons]

theorem afterLastNl_append_no_nl {b : List Char} (hb : ∀ c ∈ b, ¬ c = '\n')
    (a : List Char) : afterLastNl (a ++ b) = afterLastNl a ++ b := by
  unfold afterLastNl
  rw [List.reverse_append]
  rw [takeWhile_append_all a.reverse (by
    intro x hx
    simp [hb x (List.mem_reverse.mp hx)])]
  rw [List.reverse_append, List.reverse_reverse]

theorem afterLastNl_append_mem {b : List Char} (hb : '\n' ∈ b) (a : List Char) :
    afterLastNl (a ++ b) = afterLastNl b := by
  unfold afterLastNl
  rw [List.reverse_append]
  rw [takeWhile_append_stop a.reverse ⟨'\n', List.mem_reverse.mpr hb, by simp⟩]

theorem dropWhile_nil_or_cons_not (p : Char → Bool) :
    ∀ l : List Char, l.dropWhile p = [] ∨
      ∃ h t, l.dropWhile p = h :: t ∧ p h = false := by
  intro l
  induction l with
  | nil => exact Or.inl rfl
  | cons c cs ih =>
    by_cases hc : p c = true
    · simpa [List.dropWhile_cons, hc] using ih
    · have hc' : p c = false := by revert hc; cases p c <;> simp
      exact Or.inr ⟨c, cs, by simp [List.dropWhile_cons, hc'], hc'⟩

theorem afterLastNl_split (l : List Char) :
    ∃ b, l = b ++ afterLastNl l ∧ (b = [] ∨ ∃ b', b = b' ++ ['\n']) := by
  refine ⟨(l.reverse.dropWhile (fun c => !(c = '\n'))).reverse, ?_, ?_⟩
  · unfold afterLastNl
    have key := congrArg List.reverse
      (List.takeWhile_append_dropWhile (fun c => !(c = '\n')) l.reverse)
    rw [List.reverse_append, List.reverse_reverse] at key
    exact key.symm
  · rcases dropWhile_nil_or_cons_not (fun c => !(c = '\n')) l.reverse with h | ⟨c, t, h, hc⟩
    · exact Or.inl (by rw [h]; rfl)
    · right
      refine ⟨t.reverse, ?_⟩
      have hc' : c = '\n' := by simpa using hc
      rw [h, hc']
      simp

theorem afterLastNl_all {l : List Char} {p : Char → Bool} (h : l.all p = true) :
    (afterLastNl l).all p = true := by
  obtain ⟨b, hb, _⟩ := afterLastNl_split l
  rw [hb, List.all_append] at h
  simp only [Bool.and_eq_true] at h
  exact h.2

theorem dropLeading_decomp (p : Char → Bool) (cs : List Char) :
    ∃ t, cs = t ++ dropLeading p cs ∧ t.all p = true := by
  induction cs with
  | nil => exact ⟨[], rfl, rfl⟩
  | cons c cs ih =>
    by_cases hc : p c = true
    · obtain ⟨t, ht, hall⟩ := ih
      refine ⟨c :: t, ?_, ?_⟩
      · rw [dropLeading]
        simp only [hc, if_true]
        rw [List.cons_append, ← ht]
      · simp [hall, hc]
    · have hc' : p c = false := by revert hc; cases p c <;> simp
      exact ⟨[], by simp [dropLeading, hc'], rfl⟩

theorem dropLeading_append_all {p : Char → Bool} :
    ∀ {t : List Char} (x : List Char), t.all p = true →
      dropLeading p (t ++ x) = dropLeading p x := by
  intro t
  induction t with
  | nil => intro x _; rfl
  | cons c t ih =>
    intro x hall
    rw [List.all_cons, Bool.and_eq_true] at hall
    rw [List.cons_append, dropLeading]
    simp only [hall.1, if_true]
    exact ih x hall.2

theorem dropLeading_cons_not {p : Char → Bool} {c : Char} (h : p c = false)
    (cs : List Char) : dropLeading p (c :: cs) = c :: cs := by
  simp [dropLeading, h]

theorem stripBy_all_left {p : Char → Bool} {t : List Char} (h : t.all p = true)
    (x : List Char) : stripBy p (t ++ x) = stripBy p x := by
  simp [stripBy, dropLeading_append_all x h]

theorem splitAtFirstClose_isSome {t : List Char} (h : ')' ∈ t) :
    (splitAtFirstClose t).isSome = true := by
  induction t with
  | nil => simp at h
  | cons c cs ih =>
    by_cases hc : c = ')'
    · simp [splitAtFirstClose, hc]
    · have h' : ')' ∈ cs := by
        rcases List.mem_cons.mp h with h | h
        · exact absurd h.symm hc
        · exact h
      obtain ⟨v, hv⟩ := Option.isSome_iff_exists.mp (ih h')
      obtain ⟨a, r⟩ := v
      simp [splitAtFirstClose, hc, hv]

theorem greedyCapture_append_close : ∀ p : List Char,
    greedyCapture (p ++ [')']) = some p := by
  intro p
  induction p with
  | nil => rfl
  | cons c cs ih =>
    simp [greedyCapture, ih]

/-! ## The `re.search` scan: decomposition and existence lemmas -/

theorem reSearch_decomp {attempt : List Char → Option (List Char)}
    {pat : List Char}
    (hatt : ∀ cs v, attempt cs = some v →
      ∃ ws t, cs = ws ++ (pat ++ t) ∧ ws.all isWS = true) :
    ∀ (cs ctx : List Char) (atStart : Bool),
      (atStart = true → afterLastNl ctx = []) →
      ∀ v, reSearchLineStart attempt atStart cs = some v →
      ∃ pre t, ctx ++ cs = pre ++ (pat ++ t) ∧ (afterLastNl pre).all isWS = true := by
  intro cs
  induction cs with
  | nil =>
    intro ctx atStart _ v hv
    simp [reSearchLineStart] at hv
  | cons c cs ih =>
    intro ctx atStart hctx v hv
    rw [reSearchLineStart] at hv
    rcases hA : (if atStart then attempt (c :: cs) else none) with _ | w
    · rw [hA] at hv
      have hrec := ih (ctx ++ [c]) (c = '\n') ?_ v hv
      · obtain ⟨pre, t, heq, hws⟩ := hrec
        exact ⟨pre, t, by rw [← heq, List.append_assoc, List.singleton_append], hws⟩
      · intro hnl
        have : c = '\n' := of_decide_eq_true hnl
        rw [this, afterLastNl_append_nl]
    · rw [hA] at hv
      cases atStart with
      | false => simp at hA
      | true =>
        rw [if_pos rfl] at hA
        obtain ⟨ws, t, heq, hws⟩ := hatt (c :: cs) w hA
        refine ⟨ctx ++ ws, t, ?_, ?_⟩
        · rw [heq, List.append_assoc]
        · by_cases hnl : '\n' ∈ ws
          · rw [afterLastNl_append_mem hnl]
            exact afterLastNl_all hws
          · rw [afterLastNl_append_no_nl (fun d hd he => hnl (he ▸ hd)) ctx]
            rw [hctx rfl, List.nil_append]
            exact hws

theorem reSearch_exists {attempt : List Char → Option (List Char)}
    (hnil : attempt [] = none) :
    ∀ (a d : List Char) (atStart : Bool),
      (a = [] → atStart = true) →
      (∀ h : a ≠ [], a.getLast h = '\n') →
      (attempt d).isSome = true →
      (reSearchLineStart attempt atStart (a ++ d)).isSome = true := by
  intro a
  induction a with
  | nil =>
    intro d atStart hstart _ hd
    rw [hstart rfl]
    cases d with
    | nil => rw [hnil] at hd; cases hd
    | cons c cs =>
      obtain ⟨v, hv⟩ := Option.isSome_iff_exists.mp hd
      simp [reSearchLineStart, hv]
  | cons c a' ih =>
    intro d atStart _ hlast hd
    rw [List.cons_append, reSearchLineStart]
    rcases hA : (if atStart then attempt (c :: (a' ++ d)) else none) with _ | w
    · have hstart' : a' = [] → ((c = '\n') : Bool) = true := by
        intro ha'
        subst ha'
        have : c = '\n' := hlast (by simp)
        simp [this]
      have hlast' : ∀ h : a' ≠ [], a'.getLast h = '\n' := by
        intro h
        have := hlast (by simp)
        rwa [List.getLast_cons h] at this
      have := ih d (c = '\n') hstart' hlast' hd
      simpa using this
    · simp

/-! ## From declarative marker presence to search success -/

theorem tryVarAt_decomp : ∀ (cs v : List Char), tryVarAt cs = some v →
    ∃ ws t, cs = ws ++ (str "FINAL_VAR(" ++ t) ∧ ws.all isWS = true := by
  intro cs v h
  rw [tryVarAt] at h
  by_cases hp : (str "FINAL_VAR(").isPrefixOf (dropWS cs) = true
  · obtain ⟨t, ht⟩ := List.isPrefixOf_iff_prefix.mp hp
    obtain ⟨ws, hws, hall⟩ := dropLeading_decomp isWS cs
    have hws' : cs = ws ++ dropWS cs := hws
    rw [← ht] at hws'
    exact ⟨ws, t, hws', hall⟩
  · rw [if_neg hp] at h
    cases h

theorem tryFinalAt_decomp : ∀ (cs v : List Char), tryFinalAt cs = some v →
    ∃ ws t, cs = ws ++ (str "FINAL(" ++ t) ∧ ws.all isWS = true := by
  intro cs v h
  rw [tryFinalAt] at h
  by_cases hp : (str "FINAL(").isPrefixOf (dropWS cs) = true
  · obtain ⟨t, ht⟩ := List.isPrefixOf_iff_prefix.mp hp
    obtain ⟨ws, hws, hall⟩ := dropLeading_decomp isWS cs
    have hws' : cs = ws ++ dropWS cs := hws
    rw [← ht] at hws'
    exact ⟨ws, t, hws', hall⟩
  · rw [if_neg hp] at h
    cases h

theorem varMarkerPresent_search {cs : List Char} (h : varMarkerPresent cs = true) :
    (searchFinalVar cs).isSome = true := by
  rw [varMarkerPresent] at h
  obtain ⟨i, hir, hP⟩ := List.any_eq_true.mp h
  rw [Bool.and_eq_true, Bool.and_eq_true] at hP
  obtain ⟨⟨hws, hpre⟩, hcont⟩ := hP
  obtain ⟨t, ht⟩ := List.isPrefixOf_iff_prefix.mp hpre
  obtain ⟨b, hsplit, hb⟩ := afterLastNl_split (cs.take i)
  have hcs : cs = b ++ (afterLastNl (cs.take i) ++ cs.drop i) := by
    calc cs = cs.take i ++ cs.drop i := (List.take_append_drop i cs).symm
      _ = (b ++ afterLastNl (cs.take i)) ++ cs.drop i := by rw [← hsplit]
      _ = b ++ (afterLastNl (cs.take i) ++ cs.drop i) := by rw [List.append_assoc]
  have hT : t = cs.drop (i + 10) := by
    have hdt := congrArg (List.drop (str "FINAL_VAR(").length) ht
    rw [List.drop_left, List.drop_drop] at hdt
    exact hdt
  have htry : (tryVarAt (afterLastNl (cs.take i) ++ cs.drop i)).isSome = true := by
    rw [tryVarAt]
    have hdws : dropWS (afterLastNl (cs.take i) ++ cs.drop i) = cs.drop i := by
      rw [dropWS, dropLeading_append_all _ hws, ← ht]
      rw [show str "FINAL_VAR(" ++ t = 'F' :: (str "INAL_VAR(" ++ t) from rfl]
      exact dropLeading_cons_not (by decide) _
    rw [hdws, ← ht, if_pos (isPrefixOf_self_append _ _)]
    have hdrop : (str "FINAL_VAR(" ++ t).drop 10 = t := by
      have h10 : (str "FINAL_VAR(").length = 10 := rfl
      rw [← h10, List.drop_left]
    rw [hdrop]
    have hmem : ')' ∈ t := by
      rw [hT]
      simpa using hcont
    obtain ⟨v, hv⟩ := Option.isSome_iff_exists.mp (splitAtFirstClose_isSome hmem)
    obtain ⟨a, r⟩ := v
    simp [hv]
  rw [searchFinalVar, hcs]
  refine reSearch_exists rfl b _ true ?_ ?_ htry
  · intro _; rfl
  · intro hne
    rcases hb with rfl | ⟨b', rfl⟩
    · exact absurd rfl hne
    · exact List.getLast_concat _

theorem finalMarkerPresent_search {cs : List Char} (h : finalMarkerPresent cs = true) :
    (searchFinal cs).isSome = true := by
  rw [finalMarkerPresent] at h
  obtain ⟨i, hir, hP⟩ := List.any_eq_true.mp h
  rw [Bool.and_eq_true, Bool.and_eq_true] at hP
  obtain ⟨⟨hws, hpre⟩, hcap⟩ := hP
  obtain ⟨t, ht⟩ := List.isPrefixOf_iff_prefix.mp hpre
  obtain ⟨b, hsplit, hb⟩ := afterLastNl_split (cs.take i)
  have hcs : cs = b ++ (afterLastNl (cs.take i) ++ cs.drop i) := by
    calc cs = cs.take i ++ cs.drop i := (List.take_append_drop i cs).symm
      _ = (b ++ afterLastNl (cs.take i)) ++ cs.drop i := by rw [← hsplit]
      _ = b ++ (afterLastNl (cs.take i) ++ cs.drop i) := by rw [List.append_assoc]
  have hT : t = cs.drop (i + 6) := by
    have hdt := congrArg (List.drop (str "FINAL(").length) ht
    rw [List.drop_left, List.drop_drop] at hdt
    exact hdt
  have htry : (tryFinalAt (afterLastNl (cs.take i) ++ cs.drop i)).isSome = true := by
    rw [tryFinalAt]
    have hdws : dropWS (afterLastNl (cs.take i) ++ cs.drop i) = cs.drop i := by
      rw [dropWS, dropLeading_append_all _ hws, ← ht]
      rw [show str "FINAL(" ++ t = 'F' :: (str "INAL(" ++ t) from rfl]
      exact dropLeading_cons_not (by decide) _
    rw [hdws, ← ht, if_pos (isPrefixOf_self_append _ _)]
    have hdrop : (str "FINAL(" ++ t).drop 6 = t := by
      have h6 : (str "FINAL(").length = 6 := rfl
      rw [← h6, List.drop_left]
    rw [hdrop, hT]
    exact hcap
  rw [searchFinal, hcs]
  refine reSearch_exists rfl b _ true ?_ ?_ htry
  · intro _; rfl
  · intro hne
    rcases hb with rfl | ⟨b', rfl⟩
    · exact absurd rfl hne
    · exact List.getLast_concat _

/-! ## Claims C1, C9, C10: `find_final_answer` behaviour -/

/-- Claim C1: when both a start-of-line `FINAL_VAR` marker and a
start-of-line `FINAL` marker appear in the text, `find_final_answer` with an
executor returns the executor-resolved value of the referenced variable
(never the literal payload), and with no executor returns `none` without
falling back to the literal form. -/
theorem find_final_answer_var_precedence (cs : List Char)
    (hvar : varMarkerPresent cs = true) (hfin : finalMarkerPresent cs = true) :
    ∃ raw, searchFinalVar cs = some raw ∧
      (∀ env : Env, find_final_answer cs (some env) = some (resolveVar env raw)) ∧
      find_final_answer cs none = none := by
  have _hfin := hfin
  obtain ⟨raw, hraw⟩ := Option.isSome_iff_exists.mp (varMarkerPresent_search hvar)
  exact ⟨raw, hraw, fun env => by simp [find_final_answer, hraw],
    by simp [find_final_answer, hraw]⟩

/-- Witness for C1: text with both markers resolves through the executor
branch and returns `none` without an executor. -/
theorem find_final_answer_var_precedence_witness :
    ∃ raw, searchFinalVar (str "FINAL_VAR(x)\nFINAL(y)") = some raw ∧
      (∀ env : Env, find_final_answer (str "FINAL_VAR(x)\nFINAL(y)") (some env)
        = some (resolveVar env raw)) ∧
      find_final_answer (str "FINAL_VAR(x)\nFINAL(y)") none = none :=
  find_final_answer_var_precedence (str "FINAL_VAR(x)\nFINAL(y)")
    (by decide) (by decide)

/-- Claim C9: when every occurrence of `FINAL(` or `FINAL_VAR(` in the text
is preceded by some non-whitespace character since the last line break,
`find_final_answer` finds no final answer. -/
theorem find_final_answer_midline_no_match (cs : List Char)
    (hfin : ∀ i, i < cs.length → (str "FINAL(").isPrefixOf (cs.drop i) = true →
      (afterLastNl (cs.take i)).any (fun c => !(isWS c)) = true)
    (hvar : ∀ i, i < cs.length → (str "FINAL_VAR(").isPrefixOf (cs.drop i) = true →
      (afterLastNl (cs.take i)).any (fun c => !(isWS c)) = true) :
    ∀ env : Option Env, find_final_answer cs env = none := by
  intro env
  have hv : searchFinalVar cs = none := by
    cases hvs : searchFinalVar cs with
    | none => rfl
    | some v =>
      exfalso
      obtain ⟨pre, t, heq, hws⟩ :=
        reSearch_decomp tryVarAt_decomp cs [] true (fun _ => rfl) v hvs
      rw [List.nil_append] at heq
      have h10 : (str "FINAL_VAR(").length = 10 := rfl
      have hlen : pre.length < cs.length := by
        rw [heq]
        simp only [List.length_append, h10]
        omega
      have hdrop : (str "FINAL_VAR(").isPrefixOf (cs.drop pre.length) = true := by
        rw [heq, List.drop_left]
        exact isPrefixOf_self_append _ _
      have htake : cs.take pre.length = pre := by rw [heq, List.take_left]
      have hany := hvar pre.length hlen hdrop
      rw [htake] at hany
      exact all_any_not_contra hws hany
  have hf : searchFinal cs = none := by
    cases hfs : searchFinal cs with
    | none => rfl
    | some p =>
      exfalso
      obtain ⟨pre, t, heq, hws⟩ :=
        reSearch_decomp tryFinalAt_decomp cs [] true (fun _ => rfl) p hfs
      rw [List.nil_append] at heq
      have h6 : (str "FINAL(").length = 6 := rfl
      have hlen : pre.length < cs.length := by
        rw [heq]
        simp only [List.length_append, h6]
        omega
      have hdrop : (str "FINAL(").isPrefixOf (cs.drop pre.length) = true := by
        rw [heq, List.drop_left]
        exact isPrefixOf_self_append _ _
      have htake : cs.take pre.length = pre := by rw [heq, List.take_left]
      have hany := hfin pre.length hlen hdrop
      rw [htake] at hany
      exact all_any_not_contra hws hany
  simp [find_final_answer, hv, hf]

/-- Witness for C9: `"The result is FINAL(42)"` yields no final answer. -/
theorem find_final_answer_midline_no_match_witness :
    find_final_answer (str "The result is FINAL(42)") none = none :=
  find_final_answer_midline_no_match (str "The result is FINAL(42)")
    (by decide) (by decide) none

/-- Claim C10: whenever a start-of-line `FINAL_VAR` marker is present and an
executor is supplied, `find_final_answer` returns a found answer (never
`none`); in particular when the executor's stdout and stderr both strip to
empty it returns the empty string. -/
theorem find_final_answer_var_executor_total (cs : List Char)
    (hvar : varMarkerPresent cs = true) :
    ∃ raw, searchFinalVar cs = some raw ∧
      ∀ env : Env,
        find_final_answer cs (some env) = some (resolveVar env raw) ∧
        (stripWS (env.execute_code (mkFinalVarCode (cleanVarName raw))).stdout = [] →
         stripWS (env.execute_code (mkFinalVarCode (cleanVarName raw))).stderr = [] →
         find_final_answer cs (some env) = some []) := by
  obtain ⟨raw, hraw⟩ := Option.isSome_iff_exists.mp (varMarkerPresent_search hvar)
  refine ⟨raw, hraw, fun env => ⟨by simp [find_final_answer, hraw], ?_⟩⟩
  intro h1 h2
  simp [find_final_answer, hraw, resolveVar, h1, h2]

/-- Witness for C10: `"FINAL_VAR(x)"` with any executor yields a found
answer; with an executor producing empty output it yields the empty
string. -/
theorem find_final_answer_var_executor_total_witness :
    ∃ raw, searchFinalVar (str "FINAL_VAR(x)") = some raw ∧
      ∀ env : Env,
        find_final_answer (str "FINAL_VAR(x)") (some env)
          = some (resolveVar env raw) ∧
        (stripWS (env.execute_code (mkFinalVarCode (cleanVarName raw))).stdout = [] →
         stripWS (env.execute_code (mkFinalVarCode (cleanVarName raw))).stderr = [] →
         find_final_answer (str "FINAL_VAR(x)") (some env) = some []) :=
  find_final_answer_var_executor_total (str "FINAL_VAR(x)") (by decide)

/-! ## Claim C2: greedy capture of the literal `FINAL` payload -/

theorem no_varocc_payload (p : List Char)
    (hp : ∀ i, (str "FINAL_VAR(").isPrefixOf (p.drop i) = false) :
    ∀ k, (str "FINAL_VAR(").isPrefixOf ((p ++ [')']).drop k) = false := by
  intro k
  by_cases hk : k ≤ p.length
  · rw [List.drop_append_of_le_length hk]
    by_contra hcon
    have htrue : (str "FINAL_VAR(").isPrefixOf (p.drop k ++ [')']) = true := by
      revert hcon
      cases (str "FINAL_VAR(").isPrefixOf (p.drop k ++ [')']) <;> simp
    obtain ⟨t, ht⟩ := List.isPrefixOf_iff_prefix.mp htrue
    by_cases hT : t = []
    · subst hT
      rw [List.append_nil] at ht
      have hlast := congrArg List.getLast? ht
      rw [List.getLast?_concat] at hlast
      exact absurd hlast (by decide)
    · have hdl := congrArg List.dropLast ht
      have hTe : t.isEmpty = false := by
        simp [List.isEmpty_iff, hT]
      rw [List.dropLast_append, hTe, List.dropLast_concat] at hdl
      simp only [Bool.false_eq_true, if_false] at hdl
      have hpref : (str "FINAL_VAR(").isPrefixOf (p.drop k) = true := by
        rw [← hdl]
        exact isPrefixOf_self_append _ _
      rw [hp k] at hpref
      cases hpref
  · have hk' : (p ++ [')']).length ≤ k := by
      simp only [List.length_append, List.length_cons, List.length_nil]
      omega
    rw [List.drop_eq_nil_of_le hk']
    rfl

theorem no_varocc_final_literal (p : List Char)
    (hp : ∀ i, i < p.length → (str "FINAL_VAR(").isPrefixOf (p.drop i) = false) :
    ∀ j, (str "FINAL_VAR(").isPrefixOf
      ((str "FINAL(" ++ (p ++ [')'])).drop j) = false := by
  have hp' : ∀ i, (str "FINAL_VAR(").isPrefixOf (p.drop i) = false := by
    intro i
    by_cases hi : i < p.length
    · exact hp i hi
    · rw [List.drop_eq_nil_of_le (Nat.le_of_not_lt hi)]
      rfl
  intro j
  rcases j with _ | _ | _ | _ | _ | _ | n
  · rfl
  · rfl
  · rfl
  · rfl
  · rfl
  · rfl
  · have hdj : (str "FINAL(" ++ (p ++ [')'])).drop (n + 6) = (p ++ [')']).drop n := by
      rw [Nat.add_comm, ← List.drop_drop]
      rfl
    rw [hdj]
    exact no_varocc_payload p hp' n

theorem searchFinalVar_none_of_no_occ {cs : List Char}
    (h : ∀ j, (str "FINAL_VAR(").isPrefixOf (cs.drop j) = false) :
    searchFinalVar cs = none := by
  cases hvs : searchFinalVar cs with
  | none => rfl
  | some v =>
    exfalso
    obtain ⟨pre, t, heq, _⟩ :=
      reSearch_decomp tryVarAt_decomp cs [] true (fun _ => rfl) v hvs
    rw [List.nil_append] at heq
    have hpref : (str "FINAL_VAR(").isPrefixOf (cs.drop pre.length) = true := by
      rw [heq, List.drop_left]
      exact isPrefixOf_self_append _ _
    rw [h pre.length] at hpref
    cases hpref

theorem tryFinalAt_literal (p : List Char) :
    tryFinalAt (str "FINAL(" ++ (p ++ [')'])) = some p := by
  simp only [tryFinalAt]
  have hdws : dropWS (str "FINAL(" ++ (p ++ [')'])) = str "FINAL(" ++ (p ++ [')']) := by
    rw [show str "FINAL(" ++ (p ++ [')']) = 'F' :: (str "INAL(" ++ (p ++ [')'])) from rfl]
    rw [dropWS]
    exact dropLeading_cons_not (by decide) _
  rw [hdws, if_pos (isPrefixOf_self_append _ _)]
  have hdrop : (str "FINAL(" ++ (p ++ [')'])).drop 6 = p ++ [')'] := rfl
  rw [hdrop]
  exact greedyCapture_append_close p

theorem searchFinal_literal (p : List Char) :
    searchFinal (str "FINAL(" ++ (p ++ [')'])) = some p := by
  have h1 := tryFinalAt_literal p
  rw [searchFinal]
  rw [show str "FINAL(" ++ (p ++ [')']) = 'F' :: (str "INAL(" ++ (p ++ [')'])) from rfl]
    at h1 ⊢
  rw [reSearchLineStart, if_pos rfl, h1]

/-- Claim C2: a start-of-line literal `FINAL(...)` is captured greedily up
to the trailing closing delimiter and returned trimmed: for any payload `p`
(which may itself contain closing parentheses, nested structure and
newlines, and contains no `FINAL_VAR(` marker), the text `FINAL(p)` yields
the stripped payload; in particular `FINAL(func(arg1, arg2))` yields
`func(arg1, arg2)` and `FINAL([1, 2, 3], (4, 5))` yields
`[1, 2, 3], (4, 5)`. -/
theorem find_final_answer_greedy_literal :
    (∀ (p : List Char) (env : Option Env),
      (∀ i, i < p.length → (str "FINAL_VAR(").isPrefixOf (p.drop i) = false) →
      find_final_answer (str "FINAL(" ++ (p ++ [')'])) env = some (stripWS p)) ∧
    find_final_answer (str "FINAL(func(arg1, arg2))") none
      = some (str "func(arg1, arg2)") ∧
    find_final_answer (str "FINAL([1, 2, 3], (4, 5))") none
      = some (str "[1, 2, 3], (4, 5)") ∧
    find_final_answer (str "FINAL(multi\nline)") none
      = some (str "multi\nline") := by
  refine ⟨?_, by decide, by decide, by decide⟩
  intro p env hp
  have hv : searchFinalVar (str "FINAL(" ++ (p ++ [')'])) = none :=
    searchFinalVar_none_of_no_occ (no_varocc_final_literal p hp)
  have hf := searchFinal_literal p
  cases env with
  | none => simp [find_final_answer, hv, hf]
  | some e => simp [find_final_answer, hv, hf]

/-- Witness for C2: the general greedy-literal statement applied to the
payload `42`. -/
theorem find_final_answer_greedy_literal_witness :
    find_final_answer (str "FINAL(" ++ (str "42" ++ [')'])) none
      = some (stripWS (str "42")) :=
  find_final_answer_greedy_literal.1 (str "42") none (by decide)

/-! ## Claim C3: `find_code_blocks` -/

theorem nil_isPrefixOf (l : List Char) : ([] : List Char).isPrefixOf l = true := by
  cases l <;> rfl

theorem isPrefixOf_cons_cons (a b : Char) (as bs : List Char) :
    (a :: as).isPrefixOf (b :: bs) = (a == b && as.isPrefixOf bs) := rfl

theorem lazyClose_length : ∀ {cs : List Char} {a r : List Char},
    lazyClose cs = some (a, r) → r.length < cs.length := by
  intro cs
  induction cs with
  | nil => intro a r h; cases h
  | cons c cs ih =>
    intro a r h
    rw [lazyClose] at h
    by_cases hc : (c = '\n' && (str "```").isPrefixOf cs) = true
    · rw [if_pos hc] at h
      injection h with h'
      injection h' with h1 h2
      subst h2
      have : (cs.drop 3).length ≤ cs.length := by
        rw [List.length_drop]; omega
      simp only [List.length_cons]
      omega
    · rw [if_neg hc] at h
      rcases hl : lazyClose cs with _ | p
      · rw [hl] at h; cases h
      · obtain ⟨a', r'⟩ := p
        rw [hl] at h
        injection h with h'
        injection h' with h1 h2
        subst h2
        have := ih hl
        simp only [List.length_cons]
        omega

theorem wsNlBacktrack_length : ∀ {cs : List Char} {cap rest : List Char},
    wsNlBacktrack cs = some (cap, rest) → rest.length < cs.length := by
  intro cs
  induction cs with
  | nil => intro cap rest h; cases h
  | cons c cs ih =>
    intro cap rest h
    rw [wsNlBacktrack] at h
    by_cases hw : isWS c = true
    · rw [if_pos hw] at h
      rcases hd : wsNlBacktrack cs with _ | p
      · rw [hd] at h
        by_cases hc : c = '\n'
        · rw [if_pos hc] at h
          have := lazyClose_length h
          simp only [List.length_cons]
          omega
        · rw [if_neg hc] at h; cases h
      · obtain ⟨a', r'⟩ := p
        rw [hd] at h
        injection h with h'
        rw [Prod.mk.injEq] at h'
        obtain ⟨h1, h2⟩ := h'
        subst h2
        have := ih hd
        simp only [List.length_cons]
        omega
    · rw [if_neg hw] at h; cases h

theorem scan_fuel_irrel : ∀ (fuel : Nat) (cs : List Char) (fuel' : Nat),
    cs.length ≤ fuel → cs.length ≤ fuel' →
    scanCodeBlocks fuel cs = scanCodeBlocks fuel' cs := by
  intro fuel
  induction fuel with
  | zero =>
    intro cs fuel' h _
    have : cs = [] := by
      cases cs with
      | nil => rfl
      | cons c cs => simp at h
    subst this
    cases fuel' <;> rfl
  | succ f ih =>
    intro cs fuel' h h'
    cases cs with
    | nil => cases fuel' <;> rfl
    | cons c cs' =>
      cases fuel' with
      | zero => simp at h'
      | succ f' =>
        rw [scanCodeBlocks, scanCodeBlocks]
        by_cases hop : (str "```repl").isPrefixOf (c :: cs') = true
        · rw [if_pos hop, if_pos hop]
          rcases hw : wsNlBacktrack ((c :: cs').drop 7) with _ | p
          · exact ih cs' f' (by simp at h; omega) (by simp at h'; omega)
          · obtain ⟨cap, rest⟩ := p
            have hlen := wsNlBacktrack_length hw
            have hd7 : ((c :: cs').drop 7).length ≤ cs'.length := by
              rw [List.length_drop]
              simp only [List.length_cons]
              omega
            have h1 : rest.length ≤ f := by
              simp only [List.length_cons] at h
              omega
            have h2 : rest.length ≤ f' := by
              simp only [List.length_cons] at h'
              omega
            show stripWS cap :: scanCodeBlocks f rest
              = stripWS cap :: scanCodeBlocks f' rest
            rw [ih rest f' h1 h2]
        · rw [if_neg hop, if_neg hop]
          exact ih cs' f' (by simp at h; omega) (by simp at h'; omega)

theorem scan_no_occur : ∀ (fuel : Nat) (cs : List Char),
    (∀ i, (str "```repl").isPrefixOf (cs.drop i) = false) →
    scanCodeBlocks fuel cs = [] := by
  intro fuel
  induction fuel with
  | zero => intro cs _; rfl
  | succ f ih =>
    intro cs h
    cases cs with
    | nil => rfl
    | cons c cs' =>
      rw [scanCodeBlocks]
      have h0 : (str "```repl").isPrefixOf (c :: cs') = false := h 0
      rw [if_neg (by rw [h0]; simp)]
      exact ih cs' (fun i => h (i + 1))

theorem no_opener_of_noBacktick {pre : List Char} (h : noBacktick pre = true) :
    ∀ i, (str "```repl").isPrefixOf (pre.drop i) = false := by
  intro i
  cases hP : (str "```repl").isPrefixOf (pre.drop i) with
  | false => rfl
  | true =>
    exfalso
    obtain ⟨t, ht⟩ := List.isPrefixOf_iff_prefix.mp hP
    have hmem : btick ∈ pre.drop i := by
      rw [← ht]
      exact List.mem_append.mpr (Or.inl (by decide))
    have hmem' : btick ∈ pre := (List.drop_sublist i pre).mem hmem
    have := List.all_eq_true.mp h btick hmem'
    simp at this

theorem find_code_blocks_skip : ∀ (pre rest : List Char),
    noBacktick pre = true →
    find_code_blocks (pre ++ rest) = find_code_blocks rest := by
  intro pre
  induction pre with
  | nil => intro rest _; rfl
  | cons c pre' ih =>
    intro rest hpre
    rw [noBacktick, List.all_cons, Bool.and_eq_true] at hpre
    obtain ⟨hc, hall⟩ := hpre
    have hcb : ¬ c = btick := by simpa using hc
    rw [find_code_blocks]
    rw [List.cons_append]
    rw [show (c :: (pre' ++ rest)).length = (pre' ++ rest).length + 1 from rfl]
    rw [scanCodeBlocks]
    have hbc : (btick == c) = false := by
      rw [Bool.eq_false_iff]
      intro hbe
      exact hcb (eq_of_beq hbe).symm
    rw [if_neg (by
      rw [show str "```repl" = btick :: str "``repl" from rfl, isPrefixOf_cons_cons, hbc]
      simp)]
    exact ih rest hall

theorem fence_prefix_of_append_nl : ∀ {b' R : List Char},
    (str "```").isPrefixOf (b' ++ '\n' :: R) = true →
    (str "```").isPrefixOf b' = true := by
  intro b' R h
  match b' with
  | [] =>
    rw [show str "```" = btick :: btick :: btick :: [] from rfl] at h
    rw [List.nil_append, isPrefixOf_cons_cons] at h
    rw [show (btick == '\n') = false from by decide] at h
    simp at h
  | [x] =>
    rw [show str "```" = btick :: btick :: btick :: [] from rfl] at h
    simp only [List.cons_append, List.nil_append, isPrefixOf_cons_cons] at h
    rw [show (btick == '\n') = false from by decide] at h
    simp at h
  | [x, y] =>
    rw [show str "```" = btick :: btick :: btick :: [] from rfl] at h
    simp only [List.cons_append, List.nil_append, isPrefixOf_cons_cons] at h
    rw [show (btick == '\n') = false from by decide] at h
    simp at h
  | x :: y :: z :: b'' =>
    rw [show str "```" = btick :: btick :: btick :: [] from rfl] at h ⊢
    simp only [List.cons_append, isPrefixOf_cons_cons, nil_isPrefixOf,
      Bool.and_true] at h ⊢
    exact h

theorem lazyClose_block : ∀ (b : List Char),
    (∀ i, (str "\n```").isPrefixOf (b.drop i) = false) →
    ∀ tail, lazyClose (b ++ '\n' :: (str "```" ++ tail)) = some (b, tail) := by
  intro b
  induction b with
  | nil =>
    intro _ tail
    rw [List.nil_append, lazyClose]
    rw [if_pos (by rw [isPrefixOf_self_append]; simp)]
    rfl
  | cons c b' ih =>
    intro hb tail
    rw [List.cons_append, lazyClose]
    have hcond :
        (c = '\n' && (str "```").isPrefixOf (b' ++ '\n' :: (str "```" ++ tail)))
          = false := by
      by_cases hc : c = '\n'
      · cases hF : (str "```").isPrefixOf (b' ++ '\n' :: (str "```" ++ tail)) with
        | false => simp [hF]
        | true =>
          exfalso
          have hpre := fence_prefix_of_append_nl hF
          have h0 := hb 0
          rw [show (c :: b').drop 0 = c :: b' from rfl] at h0
          rw [show str "\n```" = '\n' :: str "```" from rfl,
            isPrefixOf_cons_cons] at h0
          rw [hc] at h0
          simp [hpre] at h0
      · simp [hc]
    rw [if_neg (by rw [hcond]; simp)]
    rw [ih (fun i => hb (i + 1)) tail]

theorem wsNl_block : ∀ (b : List Char),
    (∀ i, (str "\n```").isPrefixOf (b.drop i) = false) →
    ∀ tail, b.any (fun c => !(isWS c)) = true →
      wsNlBacktrack (b ++ '\n' :: (str "```" ++ tail)) = none ∨
      ∃ k, 0 < k ∧
        wsNlBacktrack (b ++ '\n' :: (str "```" ++ tail)) = some (b.drop k, tail) ∧
        (b.take k).all isWS = true := by
  intro b
  induction b with
  | nil => intro _ tail h; simp at h
  | cons c b' ih =>
    intro hb tail hany
    rw [List.cons_append, wsNlBacktrack]
    by_cases hws : isWS c = true
    · rw [if_pos hws]
      have hany' : b'.any (fun c => !(isWS c)) = true := by
        rcases List.any_eq_true.mp hany with ⟨x, hx, hpx⟩
        rcases List.mem_cons.mp hx with rfl | hx'
        · rw [hws] at hpx; simp at hpx
        · exact List.any_eq_true.mpr ⟨x, hx', hpx⟩
      rcases ih (fun i => hb (i + 1)) tail hany' with hn | ⟨k, hk, hsome, htake⟩
      · rw [hn]
        by_cases hc : c = '\n'
        · rw [if_pos hc]
          right
          refine ⟨1, Nat.one_pos, ?_, ?_⟩
          · rw [lazyClose_block b' (fun i => hb (i + 1)) tail]
            rfl
          · simp [hws]
        · rw [if_neg hc]
          exact Or.inl rfl
      · rw [hsome]
        right
        refine ⟨k + 1, Nat.succ_pos _, rfl, ?_⟩
        rw [List.take_succ_cons, List.all_cons, hws, htake]
        rfl
    · rw [if_neg hws]
      exact Or.inl rfl

theorem wsNl_block_full (b : List Char)
    (hb : ∀ i, (str "\n```").isPrefixOf (b.drop i) = false)
    (hany : b.any (fun c => !(isWS c)) = true) (tail : List Char) :
    ∃ k, wsNlBacktrack ('\n' :: (b ++ '\n' :: (str "```" ++ tail)))
        = some (b.drop k, tail) ∧ (b.take k).all isWS = true := by
  rw [wsNlBacktrack]
  rw [if_pos (show isWS '\n' = true from rfl)]
  rcases wsNl_block b hb tail hany with hn | ⟨k, _, hsome, htake⟩
  · rw [hn]
    refine ⟨0, ?_, rfl⟩
    rw [if_pos rfl]
    rw [lazyClose_block b hb tail]
    rfl
  · rw [hsome]
    exact ⟨k, rfl, htake⟩

theorem stripWS_drop_of_take_ws {b : List Char} {k : Nat}
    (h : (b.take k).all isWS = true) : stripWS (b.drop k) = stripWS b := by
  conv_rhs => rw [← List.take_append_drop k b]
  exact (stripBy_all_left h (b.drop k)).symm

theorem scan_block (b tail : List Char)
    (hb : ∀ i, (str "\n```").isPrefixOf (b.drop i) = false)
    (hany : b.any (fun c => !(isWS c)) = true) :
    ∀ f, tail.length ≤ f →
      scanCodeBlocks (f + 1) (mkBlockText b ++ tail)
        = stripWS b :: find_code_blocks tail := by
  intro f hf
  have hassoc : mkBlockText b ++ tail
      = str "```repl" ++ ('\n' :: (b ++ '\n' :: (str "```" ++ tail))) := by
    simp [mkBlockText, List.append_assoc]
  obtain ⟨k, hw, htake⟩ := wsNl_block_full b hb hany tail
  rw [hassoc]
  rw [show str "```repl" ++ ('\n' :: (b ++ '\n' :: (str "```" ++ tail)))
      = btick :: (str "``repl" ++ ('\n' :: (b ++ '\n' :: (str "```" ++ tail))))
      from rfl]
  rw [scanCodeBlocks]
  rw [if_pos (by
    rw [show btick :: (str "``repl" ++ ('\n' :: (b ++ '\n' :: (str "```" ++ tail))))
        = str "```repl" ++ ('\n' :: (b ++ '\n' :: (str "```" ++ tail))) from rfl]
    exact isPrefixOf_self_append _ _)]
  rw [show (btick :: (str "``repl" ++
      ('\n' :: (b ++ '\n' :: (str "```" ++ tail))))).drop 7
      = '\n' :: (b ++ '\n' :: (str "```" ++ tail)) from rfl]
  rw [hw]
  show stripWS (b.drop k) :: scanCodeBlocks f tail
    = stripWS b :: find_code_blocks tail
  rw [stripWS_drop_of_take_ws htake]
  rw [scan_fuel_irrel f tail tail.length hf (Nat.le_refl _)]
  rfl

theorem find_code_blocks_block (b tail : List Char) (hgood : goodBody b = true) :
    find_code_blocks (mkBlockText b ++ tail)
      = stripWS b :: find_code_blocks tail := by
  rw [goodBody, Bool.and_eq_true] at hgood
  obtain ⟨hany, hno⟩ := hgood
  have hb : ∀ i, (str "\n```").isPrefixOf (b.drop i) = false := by
    intro i
    by_cases hi : i < b.length
    · have := List.all_eq_true.mp hno i (List.mem_range.mpr hi)
      simpa using this
    · rw [List.drop_eq_nil_of_le (Nat.le_of_not_lt hi)]
      rfl
  have hlen : (mkBlockText b ++ tail).length = (b.length + 11 + tail.length) + 1 := by
    have h7 : (str "```repl").length = 7 := rfl
    have h3 : (str "```").length = 3 := rfl
    simp [mkBlockText, List.length_append, h7, h3]
    omega
  rw [find_code_blocks, hlen]
  exact scan_block b tail hb hany (b.length + 11 + tail.length) (by omega)

theorem find_code_blocks_assemble :
    ∀ (blocks : List (List Char × List Char)) (pre : List Char),
      noBacktick pre = true →
      (∀ bs ∈ blocks, noBacktick bs.2 = true ∧ goodBody bs.1 = true) →
      find_code_blocks (assemble pre blocks)
        = blocks.map (fun bs => stripWS bs.1) := by
  intro blocks
  induction blocks with
  | nil =>
    intro pre hpre _
    rw [assemble, find_code_blocks]
    exact scan_no_occur pre.length pre (no_opener_of_noBacktick hpre)
  | cons bs rest ih =>
    intro pre hpre hall
    obtain ⟨b, sep⟩ := bs
    rw [assemble]
    rw [find_code_blocks_skip pre _ hpre]
    rw [find_code_blocks_block b _ (hall (b, sep) (List.mem_cons_self _ _)).2]
    rw [ih sep (hall (b, sep) (List.mem_cons_self _ _)).1
      (fun x hx => hall x (List.mem_cons_of_mem _ hx))]
    rfl

/-- Claim C3 counterexample: a text consisting of two properly delimited
`` ```repl `` blocks (the first with empty inner text) yields one merged
snippet, not two: the lazy close of the first block latches onto the second
block's opening fence. -/
theorem find_code_blocks_merges_adjacent_blocks :
    str "```repl\n\n```\nX\n```repl\nY\n```"
      = mkBlockText [] ++ (str "\nX\n" ++ mkBlockText ['Y']) ∧
    find_code_blocks (str "```repl\n\n```\nX\n```repl\nY\n```")
      = [str "```\nX"] ∧
    (find_code_blocks (str "```repl\n\n```\nX\n```repl\nY\n```")).length = 1 := by
  refine ⟨rfl, by decide, by decide⟩

/-- Claim C3 (amended): extraction returns the empty list (never an absent
value) on text with no `` ```repl `` marker; and for text assembled from N
properly delimited blocks whose inner texts contain a non-whitespace
character and no newline-fence sequence, separated by backtick-free text,
extraction returns exactly the N trimmed inner texts in order. -/
theorem find_code_blocks_spec :
    (∀ cs : List Char, noOccur (str "```repl") cs = true →
      find_code_blocks cs = []) ∧
    (∀ (pre : List Char) (blocks : List (List Char × List Char)),
      noBacktick pre = true →
      (∀ bs ∈ blocks, noBacktick bs.2 = true ∧ goodBody bs.1 = true) →
      find_code_blocks (assemble pre blocks)
        = blocks.map (fun bs => stripWS bs.1)) := by
  constructor
  · intro cs h
    rw [noOccur] at h
    have h' : ∀ i, (str "```repl").isPrefixOf (cs.drop i) = false := by
      intro i
      by_cases hi : i < cs.length
      · have := List.all_eq_true.mp h i (List.mem_range.mpr hi)
        simpa using this
      · rw [List.drop_eq_nil_of_le (Nat.le_of_not_lt hi)]
        rfl
    rw [find_code_blocks]
    exact scan_no_occur cs.length cs h'
  · exact fun pre blocks h1 h2 => find_code_blocks_assemble blocks pre h1 h2

/-- Witness for C3: a marker-free text yields `[]`, and one assembled block
with inner text `x = 1` yields exactly that snippet. -/
theorem find_code_blocks_spec_witness :
    find_code_blocks (str "no code here") = [] ∧
    find_code_blocks (assemble (str "intro ") [(str "x = 1", str " outro")])
      = [(str "x = 1", str " outro")].map (fun bs => stripWS bs.1) :=
  ⟨find_code_blocks_spec.1 (str "no code here") (by decide),
   find_code_blocks_spec.2 (str "intro ") [(str "x = 1", str " outro")]
     (by decide) (by decide)⟩
